import Mathlib

/-!
Verification development for the CleanText Markdown-to-plain-text normalizer.

The source file exports two functions:

* `markdownToHuman (text : string) : string` — a fixed pipeline of twelve
  JavaScript regex rewrite rules followed by a trim;
* `getStats (original, cleaned)` — character counts plus a reduction
  percentage `Math.round(reduction * 10) / 10`.

Embedding conventions:

* Strings are `List Char`.  JavaScript's `String.prototype.length` counts
  UTF-16 code units; `List.length` counts characters.  The two agree on every
  input appearing in the theorems below (all are ASCII), and no claim depends
  on the difference.
* Each JavaScript `replace(/re/g, ...)` call is embedded as a left-to-right
  scan that, at each position, either matches the concrete regex (consuming
  the match and emitting the replacement, then continuing after the match,
  exactly like a global regex replace, which never rescans its replacement)
  or emits one character and advances.  Every regex of the source requires at
  least one character to match, so each scan step consumes at least one input
  character.  The scans are written with an explicit fuel parameter that
  decreases by one per step; the wrappers pass `s.length` as fuel, which by
  the previous remark is never exhausted before the input is.  An exhausted
  fuel returns the remaining input unchanged (this case is unreachable from
  the wrappers).
* `^`/`$` with the `m` flag anchor at line boundaries; the scans for the
  line-anchored rules carry a Boolean that records whether the current
  position is preceded by a newline (or is the start of the string).
* JavaScript numbers are binary floating point; `getStats` is embedded over
  `ℚ`.  Every numeric theorem below is stated only over inputs where all
  intermediate values of the source computation are dyadic rationals exactly
  representable as doubles (concrete dyadic inputs; a zero numerator; or a
  power-of-two original length, where the division is exact), so the ℚ model
  and the binary64 source coincide on each theorem's whole domain.  On other
  inputs the source's division rounds and the ℚ model does not; no theorem
  below says anything about those inputs.  `Math.round` rounds half toward
  positive infinity.
-/

/-- The character class `\s` of JavaScript regexes (also the character set
removed by `String.prototype.trim`): ASCII whitespace, NBSP, and the Unicode
space separators, line/paragraph separators and BOM. -/
def isJsWs (c : Char) : Bool :=
  c == ' ' || c == '\t' || c == '\n' || c == '\r' || c == '\x0b' || c == '\x0c'
  || c == '\u00A0' || c == '\u1680' || ('\u2000' ≤ c && c ≤ '\u200A')
  || c == '\u2028' || c == '\u2029' || c == '\u202F' || c == '\u205F'
  || c == '\u3000' || c == '\uFEFF'

/-- The backtick character, U+0060. -/
def backtickChar : Char := Char.ofNat 96

/-- Whether a (consumed) segment ends with a newline, i.e. whether the
position right after it is a line start for the `m` flag. -/
def lastIsNewline (l : List Char) : Bool := l.getLast? == some '\n'

/-- Split off everything before the last newline of a list: returns
`(before, from-the-last-newline-on)`, or `none` if the list has no newline.
Used for the backtracking of the trailing `\s*` before `$` in the
horizontal-rule regex. -/
def splitLastNl : List Char → Option (List Char × List Char)
  | [] => none
  | c :: rest =>
    match splitLastNl rest with
    | some (a, b) => some (c :: a, b)
    | none => if c = '\n' then some ([], c :: rest) else none

/-- Lazy search for a closing double marker `dd` (for `(\*\*|__)(.*?)\1`):
returns the interior (which may not contain a newline, since `.` does not
match one) and the rest after the closing marker. -/
def findClose2 (d : Char) : List Char → Option (List Char × List Char)
  | [] => none
  | c :: rest =>
    if c = d ∧ rest.head? = some d then some ([], rest.tail)
    else if c = '\n' then none
    else (findClose2 d rest).map (fun p => (c :: p.1, p.2))

/-- Lazy search for a closing single marker `d` (for `(\*|_)(.*?)\1`). -/
def findClose1 (d : Char) : List Char → Option (List Char × List Char)
  | [] => none
  | c :: rest =>
    if c = d then some ([], rest)
    else if c = '\n' then none
    else (findClose1 d rest).map (fun p => (c :: p.1, p.2))

/-- Lazy search for the closing parenthesis of `\((.*?)\)`: the interior may
not contain a newline; returns interior and rest. -/
def findParenClose : List Char → Option (List Char × List Char)
  | [] => none
  | c :: rest =>
    if c = ')' then some ([], rest)
    else if c = '\n' then none
    else (findParenClose rest).map (fun p => (c :: p.1, p.2))

/-- Search for `\]\((.*?)\)` after an opening `[`, as the lazy `(.*?)\]\(`
of `\[(.*?)\]\((.*?)\)` does: stop at the first `](` that is followed by a
`)` on the same line; a `](` whose parenthesis search fails is backtracked
over, the `]` joining the label.  Returns `(label, target, rest)`. -/
def findBracketClose : List Char → Option (List Char × List Char × List Char)
  | [] => none
  | c :: rest =>
    if c = '\n' then none
    else if c = ']' ∧ rest.head? = some '(' then
      match findParenClose rest.tail with
      | some (t, r) => some ([], t, r)
      | none =>
        match findBracketClose rest with
        | some (l, t, r) => some (c :: l, t, r)
        | none => none
    else
      match findBracketClose rest with
      | some (l, t, r) => some (c :: l, t, r)
      | none => none

/-- Search for the closing backtick of `` `([^`]*)` ``; the interior may
contain newlines (a negated class matches them) but no backtick. -/
def findTick : List Char → Option (List Char × List Char)
  | [] => none
  | c :: rest =>
    if c = backtickChar then some ([], rest)
    else (findTick rest).map (fun p => (c :: p.1, p.2))

/-- Lazy search for a closing triple backtick (for ` ```[\s\S]*?``` `). -/
def findTriple : List Char → Option (List Char × List Char)
  | [] => none
  | c :: rest =>
    if c = backtickChar ∧ rest.head? = some backtickChar
        ∧ rest.tail.head? = some backtickChar then
      some ([], rest.tail.tail)
    else (findTriple rest).map (fun p => (c :: p.1, p.2))

/-- Drop the rest of the current line including its newline (the `.*\n?`
after the opening fence in `match.replace(/```.*\n?/, '')`). -/
def dropFenceLine : List Char → List Char
  | [] => []
  | c :: rest => if c = '\n' then rest else dropFenceLine rest

/-- Remove the first occurrence of a triple backtick
(`match.replace(/```/, '')`, a non-global replace). -/
def removeFirstTriple : List Char → List Char
  | [] => []
  | c :: rest =>
    if c = backtickChar ∧ rest.head? = some backtickChar
        ∧ rest.tail.head? = some backtickChar then
      rest.tail.tail
    else c :: removeFirstTriple rest

/-- Matcher for rule 1, `/^\s*#+\s*/` at a line start: maximal whitespace
run, at least one `#`, maximal trailing whitespace.  Returns whether the
consumed text ends in a newline, and the rest. -/
def matchHeading (s : List Char) : Option (Bool × List Char) :=
  let r := s.dropWhile isJsWs
  let hs := r.takeWhile (· = '#')
  if hs = [] then none
  else
    let r2 := r.dropWhile (· = '#')
    some (lastIsNewline (r2.takeWhile isJsWs), r2.dropWhile isJsWs)

/-- Matcher for rule 7, `/^\s*>\s?/` at a line start. -/
def matchQuote (s : List Char) : Option (Bool × List Char) :=
  match s.dropWhile isJsWs with
  | [] => none
  | c :: t =>
    if c = '>' then
      match t with
      | [] => some (false, [])
      | d :: t2 => if isJsWs d then some (d == '\n', t2) else some (false, d :: t2)
    else none

/-- Matcher for rule 9, `/^\s*(-{3,}|\*{3,}|_{3,})\s*$/` at a line start:
whitespace, a run of at least three identical rule characters, then
whitespace up to a `$` (end of input or just before a newline).  The greedy
trailing `\s*` backtracks to the last newline of the whitespace run so that
`$` holds; with no such newline and input remaining, the match fails. -/
def matchHrule (s : List Char) : Option (Bool × List Char) :=
  match s.dropWhile isJsWs with
  | [] => none
  | c :: t =>
    if c = '-' ∨ c = '*' ∨ c = '_' then
      let run := (c :: t).takeWhile (· = c)
      if 3 ≤ run.length then
        let r2 := (c :: t).dropWhile (· = c)
        let w2 := r2.takeWhile isJsWs
        let r3 := r2.dropWhile isJsWs
        if r3 = [] then some (lastIsNewline w2, [])
        else
          match splitLastNl w2 with
          | some (a, b) => some (lastIsNewline a, b ++ r3)
          | none => none
      else none
    else none

/-- Matcher for the unordered half of rule 11, `/^\s*[-*+]\s+/` at a line
start. -/
def matchUl (s : List Char) : Option (Bool × List Char) :=
  match s.dropWhile isJsWs with
  | [] => none
  | c :: t =>
    if c = '-' ∨ c = '*' ∨ c = '+' then
      let w2 := t.takeWhile isJsWs
      if w2 = [] then none else some (lastIsNewline w2, t.dropWhile isJsWs)
    else none

/-- Matcher for the ordered half of rule 11, `/^\s*\d+\.\s+/` at a line
start. -/
def matchOl (s : List Char) : Option (Bool × List Char) :=
  let r := s.dropWhile isJsWs
  if r.takeWhile Char.isDigit = [] then none
  else
    match r.dropWhile Char.isDigit with
    | [] => none
    | c :: t =>
      if c = '.' then
        let w2 := t.takeWhile isJsWs
        if w2 = [] then none else some (lastIsNewline w2, t.dropWhile isJsWs)
      else none

/-- Global replace-with-empty of a `^`-anchored (multiline) regex, given the
matcher for one match at a line start.  The Boolean tracks whether the
current position is a line start; after a match it is the matcher's reported
"consumed text ended with a newline". -/
def gmDeleteAux (m : List Char → Option (Bool × List Char)) :
    Nat → Bool → List Char → List Char
  | 0, _, s => s
  | _ + 1, _, [] => []
  | f + 1, atStart, c :: rest =>
    if atStart then
      match m (c :: rest) with
      | some (nl, r) => gmDeleteAux m f nl r
      | none => c :: gmDeleteAux m f (c == '\n') rest
    else c :: gmDeleteAux m f (c == '\n') rest

/-- Rule 1: `cleaned.replace(/^\s*#+\s*/gm, '')`. -/
def headingPass (s : List Char) : List Char := gmDeleteAux matchHeading s.length true s

/-- Rule 2, first regex: `cleaned.replace(/(\*\*|__)(.*?)\1/g, '$2')`. -/
def strongPassAux : Nat → List Char → List Char
  | 0, s => s
  | _ + 1, [] => []
  | f + 1, c :: rest =>
    if (c = '*' ∨ c = '_') ∧ rest.head? = some c then
      match findClose2 c rest.tail with
      | some (int, rest2) => int ++ strongPassAux f rest2
      | none => c :: strongPassAux f rest
    else c :: strongPassAux f rest

def strongPass (s : List Char) : List Char := strongPassAux s.length s

/-- Rule 2, second regex: `cleaned.replace(/(\*|_)(.*?)\1/g, '$2')`. -/
def weakPassAux : Nat → List Char → List Char
  | 0, s => s
  | _ + 1, [] => []
  | f + 1, c :: rest =>
    if c = '*' ∨ c = '_' then
      match findClose1 c rest with
      | some (int, rest2) => int ++ weakPassAux f rest2
      | none => c :: weakPassAux f rest
    else c :: weakPassAux f rest

def weakPass (s : List Char) : List Char := weakPassAux s.length s

/-- Rule 3: `cleaned.replace(/\[(.*?)\]\((.*?)\)/g, '$1 ($2)')`. -/
def linkPassAux : Nat → List Char → List Char
  | 0, s => s
  | _ + 1, [] => []
  | f + 1, c :: rest =>
    if c = '[' then
      match findBracketClose rest with
      | some (label, target, rest2) =>
        label ++ ' ' :: '(' :: (target ++ ')' :: linkPassAux f rest2)
      | none => c :: linkPassAux f rest
    else c :: linkPassAux f rest

def linkPass (s : List Char) : List Char := linkPassAux s.length s

/-- Rule 4: `cleaned.replace(/!\[(.*?)\]\(.*?\)/g, '$1')`. -/
def imagePassAux : Nat → List Char → List Char
  | 0, s => s
  | _ + 1, [] => []
  | f + 1, c :: rest =>
    if c = '!' ∧ rest.head? = some '[' then
      match findBracketClose rest.tail with
      | some (label, _t, rest2) => label ++ imagePassAux f rest2
      | none => c :: imagePassAux f rest
    else c :: imagePassAux f rest

def imagePass (s : List Char) : List Char := imagePassAux s.length s

/-- Rule 5: `` cleaned.replace(/`([^`]*)`/g, '$1') ``. -/
def codePassAux : Nat → List Char → List Char
  | 0, s => s
  | _ + 1, [] => []
  | f + 1, c :: rest =>
    if c = backtickChar then
      match findTick rest with
      | some (int, rest2) => int ++ codePassAux f rest2
      | none => c :: codePassAux f rest
    else c :: codePassAux f rest

def codePass (s : List Char) : List Char := codePassAux s.length s

/-- Rule 6: ``` cleaned.replace(/```[\s\S]*?```/g, m => m.replace(/```.*\n?/, '').replace(/```/, '')) ```.
The matched block is the opening triple backtick, the minimal interior and
the closing triple backtick; the replacement drops the first line of the
match (opening fence and language tag) and then the first remaining triple
backtick. -/
def fencePassAux : Nat → List Char → List Char
  | 0, s => s
  | _ + 1, [] => []
  | f + 1, c :: rest =>
    if c = backtickChar ∧ rest.head? = some backtickChar
        ∧ rest.tail.head? = some backtickChar then
      match findTriple rest.tail.tail with
      | some (int, rest2) =>
        removeFirstTriple
            (dropFenceLine (int ++ [backtickChar, backtickChar, backtickChar]))
          ++ fencePassAux f rest2
      | none => c :: fencePassAux f rest
    else c :: fencePassAux f rest

def fencePass (s : List Char) : List Char := fencePassAux s.length s

/-- Rule 7: `cleaned.replace(/^\s*>\s?/gm, '')`. -/
def quotePass (s : List Char) : List Char := gmDeleteAux matchQuote s.length true s

/-- Rule 8, first regex: `cleaned.replace(/\|\s*/g, ' ')`. -/
def pipePassAux : Nat → List Char → List Char
  | 0, s => s
  | _ + 1, [] => []
  | f + 1, c :: rest =>
    if c = '|' then ' ' :: pipePassAux f (rest.dropWhile isJsWs)
    else c :: pipePassAux f rest

def pipePass (s : List Char) : List Char := pipePassAux s.length s

/-- Rule 8, second regex: `cleaned.replace(/ {2,}/g, ' ')` (space characters
only). -/
def collapseSpacesAux : Nat → List Char → List Char
  | 0, s => s
  | _ + 1, [] => []
  | f + 1, c :: rest =>
    if c = ' ' ∧ rest.head? = some ' ' then
      ' ' :: collapseSpacesAux f (rest.dropWhile (· = ' '))
    else c :: collapseSpacesAux f rest

def collapseSpaces (s : List Char) : List Char := collapseSpacesAux s.length s

/-- Rule 9: `cleaned.replace(/^\s*(-{3,}|\*{3,}|_{3,})\s*$/gm, '')`. -/
def hrulePass (s : List Char) : List Char := gmDeleteAux matchHrule s.length true s

/-- Rule 10: `cleaned.replace(/\\(.)/g, '$1')`; `.` does not match a
newline, so a backslash before a newline (or at the end) is kept. -/
def escapePass : List Char → List Char
  | [] => []
  | [c] => [c]
  | c :: d :: rest =>
    if c = '\\' ∧ d ≠ '\n' then d :: escapePass rest
    else c :: escapePass (d :: rest)

/-- Rule 11, unordered: `cleaned.replace(/^\s*[-*+]\s+/gm, '')`. -/
def ulPass (s : List Char) : List Char := gmDeleteAux matchUl s.length true s

/-- Rule 11, ordered: `cleaned.replace(/^\s*\d+\.\s+/gm, '')`. -/
def olPass (s : List Char) : List Char := gmDeleteAux matchOl s.length true s

/-- Rule 12: `cleaned.replace(/\n{3,}/g, '\n\n')`. -/
def collapseNewlinesAux : Nat → List Char → List Char
  | 0, s => s
  | _ + 1, [] => []
  | f + 1, c :: rest =>
    if c = '\n' ∧ rest.head? = some '\n' ∧ rest.tail.head? = some '\n' then
      '\n' :: '\n' :: collapseNewlinesAux f (rest.dropWhile (· = '\n'))
    else c :: collapseNewlinesAux f rest

def collapseNewlines (s : List Char) : List Char := collapseNewlinesAux s.length s

/-- `String.prototype.trim`: strip leading and trailing `\s` characters. -/
def jsTrim (s : List Char) : List Char :=
  (((s.dropWhile isJsWs).reverse).dropWhile isJsWs).reverse

/-- The normalizer `markdownToHuman` of the source: the guard
`if (!text) return ''` (only the empty string is falsy among strings),
then the twelve rewrite rules in source order, then `trim()`. -/
def markdownToHuman (text : List Char) : List Char :=
  if text = [] then []
  else
    jsTrim (collapseNewlines (olPass (ulPass (escapePass (hrulePass
      (collapseSpaces (pipePass (quotePass (fencePass (codePass (imagePass
      (linkPass (weakPass (strongPass (headingPass text)))))))))))))))

/-- JavaScript `Math.round`: round half toward positive infinity. -/
def jsMathRound (x : ℚ) : ℤ := ⌊x + 1 / 2⌋

/-- The record returned by `getStats`. -/
structure ConversionStats where
  originalChars : Nat
  cleanedChars : Nat
  reductionPercent : ℚ
  deriving Repr, DecidableEq

/-- The statistics calculator `getStats` of the source:
`reduction = originalChars > 0 ? ((originalChars - cleanedChars) / originalChars) * 100 : 0`
and `reductionPercent = Math.round(reduction * 10) / 10`. -/
def getStats (original cleaned : List Char) : ConversionStats :=
  let originalChars := original.length
  let cleanedChars := cleaned.length
  let reduction : ℚ :=
    if 0 < originalChars then
      ((originalChars : ℚ) - (cleanedChars : ℚ)) / (originalChars : ℚ) * 100
    else 0
  { originalChars := originalChars
    cleanedChars := cleanedChars
    reductionPercent := (jsMathRound (reduction * 10) : ℚ) / 10 }

/-- Modelled from the spec: "standard round-half-away-from-zero", one of the
two rounding modes §4.2 allows for `reductionPercent`. -/
def roundHalfAwayFromZero (x : ℚ) : ℤ :=
  if 0 ≤ x then ⌊x + 1 / 2⌋ else ⌈x - 1 / 2⌉

/-- Modelled from the spec: "round-half-to-even", the other rounding mode
§4.2 allows for `reductionPercent`. -/
def roundHalfToEven (x : ℚ) : ℤ :=
  if Int.fract x = 1 / 2 then (if ⌊x⌋ % 2 = 0 then ⌊x⌋ else ⌊x⌋ + 1)
  else ⌊x + 1 / 2⌋

/-- Strings over the space, tab and newline characters only: the whitespace
alphabet of the whitespace-only inputs considered by the spec. -/
abbrev wsOnly (s : List Char) : Prop := ∀ c ∈ s, c = ' ' ∨ c = '\t' ∨ c = '\n'

theorem wsOnly_tail {c : Char} {rest : List Char} (h : wsOnly (c :: rest)) :
    wsOnly rest :=
  fun x hx => h x (List.mem_cons_of_mem _ hx)

theorem wsOnly_head {c : Char} {rest : List Char} (h : wsOnly (c :: rest)) :
    c = ' ' ∨ c = '\t' ∨ c = '\n' :=
  h c (List.mem_cons_self _ _)

theorem isJsWs_of_wsOnly {s : List Char} (h : wsOnly s) :
    ∀ x ∈ s, isJsWs x = true := by
  intro x hx
  rcases h x hx with h' | h' | h' <;> subst h' <;> decide

theorem dropWhile_eq_nil_of_all {p : Char → Bool} :
    ∀ {l : List Char}, (∀ x ∈ l, p x = true) → l.dropWhile p = [] := by
  intro l
  induction l with
  | nil => intro _; rfl
  | cons c rest ih =>
    intro h
    rw [List.dropWhile_cons_of_pos (h c (List.mem_cons_self _ _))]
    exact ih fun x hx => h x (List.mem_cons_of_mem _ hx)

theorem wsOnly_dropWhile {p : Char → Bool} {s : List Char} (h : wsOnly s) :
    wsOnly (s.dropWhile p) :=
  fun x hx => h x ((List.dropWhile_sublist _).subset hx)

theorem matchHeading_wsOnly {s : List Char} (h : wsOnly s) :
    matchHeading s = none := by
  simp [matchHeading, dropWhile_eq_nil_of_all (isJsWs_of_wsOnly h)]

theorem matchQuote_wsOnly {s : List Char} (h : wsOnly s) :
    matchQuote s = none := by
  simp [matchQuote, dropWhile_eq_nil_of_all (isJsWs_of_wsOnly h)]

theorem matchHrule_wsOnly {s : List Char} (h : wsOnly s) :
    matchHrule s = none := by
  simp [matchHrule, dropWhile_eq_nil_of_all (isJsWs_of_wsOnly h)]

theorem matchUl_wsOnly {s : List Char} (h : wsOnly s) :
    matchUl s = none := by
  simp [matchUl, dropWhile_eq_nil_of_all (isJsWs_of_wsOnly h)]

theorem matchOl_wsOnly {s : List Char} (h : wsOnly s) :
    matchOl s = none := by
  simp [matchOl, dropWhile_eq_nil_of_all (isJsWs_of_wsOnly h)]

theorem gmDeleteAux_eq_self (m : List Char → Option (Bool × List Char))
    (hm : ∀ t, wsOnly t → m t = none) :
    ∀ (f : Nat) (b : Bool) (s : List Char), wsOnly s → gmDeleteAux m f b s = s := by
  intro f
  induction f with
  | zero => intro b s _; rfl
  | succ f ih =>
    intro b s hs
    cases s with
    | nil => rfl
    | cons c rest =>
      cases b with
      | false => simp [gmDeleteAux, ih _ rest (wsOnly_tail hs)]
      | true => simp [gmDeleteAux, hm _ hs, ih _ rest (wsOnly_tail hs)]

theorem strongPassAux_eq_self :
    ∀ (f : Nat) (s : List Char), wsOnly s → strongPassAux f s = s := by
  intro f
  induction f with
  | zero => intro s _; rfl
  | succ f ih =>
    intro s hs
    cases s with
    | nil => rfl
    | cons c rest =>
      have hc : ¬(c = '*' ∨ c = '_') := by
        rcases wsOnly_head hs with h' | h' | h' <;> subst h' <;> decide
      simp [strongPassAux, hc, ih rest (wsOnly_tail hs)]

theorem weakPassAux_eq_self :
    ∀ (f : Nat) (s : List Char), wsOnly s → weakPassAux f s = s := by
  intro f
  induction f with
  | zero => intro s _; rfl
  | succ f ih =>
    intro s hs
    cases s with
    | nil => rfl
    | cons c rest =>
      have hc : ¬(c = '*' ∨ c = '_') := by
        rcases wsOnly_head hs with h' | h' | h' <;> subst h' <;> decide
      simp [weakPassAux, hc, ih rest (wsOnly_tail hs)]

theorem linkPassAux_eq_self :
    ∀ (f : Nat) (s : List Char), wsOnly s → linkPassAux f s = s := by
  intro f
  induction f with
  | zero => intro s _; rfl
  | succ f ih =>
    intro s hs
    cases s with
    | nil => rfl
    | cons c rest =>
      have hc : ¬(c = '[') := by
        rcases wsOnly_head hs with h' | h' | h' <;> subst h' <;> decide
      simp [linkPassAux, hc, ih rest (wsOnly_tail hs)]

theorem imagePassAux_eq_self :
    ∀ (f : Nat) (s : List Char), wsOnly s → imagePassAux f s = s := by
  intro f
  induction f with
  | zero => intro s _; rfl
  | succ f ih =>
    intro s hs
    cases s with
    | nil => rfl
    | cons c rest =>
      have hc : ¬(c = '!') := by
        rcases wsOnly_head hs with h' | h' | h' <;> subst h' <;> decide
      simp [imagePassAux, hc, ih rest (wsOnly_tail hs)]

theorem codePassAux_eq_self :
    ∀ (f : Nat) (s : List Char), wsOnly s → codePassAux f s = s := by
  intro f
  induction f with
  | zero => intro s _; rfl
  | succ f ih =>
    intro s hs
    cases s with
    | nil => rfl
    | cons c rest =>
      have hc : ¬(c = backtickChar) := by
        rcases wsOnly_head hs with h' | h' | h' <;> subst h' <;> decide
      simp [codePassAux, hc, ih rest (wsOnly_tail hs)]

theorem fencePassAux_eq_self :
    ∀ (f : Nat) (s : List Char), wsOnly s → fencePassAux f s = s := by
  intro f
  induction f with
  | zero => intro s _; rfl
  | succ f ih =>
    intro s hs
    cases s with
    | nil => rfl
    | cons c rest =>
      have hc : ¬(c = backtickChar) := by
        rcases wsOnly_head hs with h' | h' | h' <;> subst h' <;> decide
      simp [fencePassAux, hc, ih rest (wsOnly_tail hs)]

theorem pipePassAux_eq_self :
    ∀ (f : Nat) (s : List Char), wsOnly s → pipePassAux f s = s := by
  intro f
  induction f with
  | zero => intro s _; rfl
  | succ f ih =>
    intro s hs
    cases s with
    | nil => rfl
    | cons c rest =>
      have hc : ¬(c = '|') := by
        rcases wsOnly_head hs with h' | h' | h' <;> subst h' <;> decide
      simp [pipePassAux, hc, ih rest (wsOnly_tail hs)]

theorem escapePass_eq_self :
    ∀ (s : List Char), wsOnly s → escapePass s = s := by
  intro s
  induction s with
  | nil => intro _; rfl
  | cons c rest ih =>
    intro hs
    cases rest with
    | nil => rfl
    | cons d rest2 =>
      have hc : ¬(c = '\\' ∧ d ≠ '\n') := by
        rcases wsOnly_head hs with h' | h' | h' <;> subst h' <;>
          exact fun h2 => absurd h2.1 (by decide)
      simp [escapePass, hc, ih (wsOnly_tail hs)]

theorem collapseSpacesAux_wsOnly :
    ∀ (f : Nat) (s : List Char), wsOnly s → wsOnly (collapseSpacesAux f s) := by
  intro f
  induction f with
  | zero => intro s hs; exact hs
  | succ f ih =>
    intro s hs
    cases s with
    | nil => exact hs
    | cons c rest =>
      by_cases hcond : c = ' ' ∧ rest.head? = some ' '
      · rw [show collapseSpacesAux (f + 1) (c :: rest)
              = ' ' :: collapseSpacesAux f (rest.dropWhile (· = ' ')) by
            simp [collapseSpacesAux, hcond]]
        intro x hx
        rcases List.mem_cons.mp hx with rfl | hx
        · exact Or.inl rfl
        · exact ih _ (wsOnly_dropWhile (wsOnly_tail hs)) x hx
      · rw [show collapseSpacesAux (f + 1) (c :: rest)
              = c :: collapseSpacesAux f rest by
            simp [collapseSpacesAux, hcond]]
        intro x hx
        rcases List.mem_cons.mp hx with rfl | hx
        · exact wsOnly_head hs
        · exact ih _ (wsOnly_tail hs) x hx

theorem collapseNewlinesAux_wsOnly :
    ∀ (f : Nat) (s : List Char), wsOnly s → wsOnly (collapseNewlinesAux f s) := by
  intro f
  induction f with
  | zero => intro s hs; exact hs
  | succ f ih =>
    intro s hs
    cases s with
    | nil => exact hs
    | cons c rest =>
      by_cases hcond : c = '\n' ∧ rest.head? = some '\n' ∧ rest.tail.head? = some '\n'
      · rw [show collapseNewlinesAux (f + 1) (c :: rest)
              = '\n' :: '\n' :: collapseNewlinesAux f (rest.dropWhile (· = '\n')) by
            simp [collapseNewlinesAux, hcond]]
        intro x hx
        rcases List.mem_cons.mp hx with rfl | hx
        · exact Or.inr (Or.inr rfl)
        rcases List.mem_cons.mp hx with rfl | hx
        · exact Or.inr (Or.inr rfl)
        · exact ih _ (wsOnly_dropWhile (wsOnly_tail hs)) x hx
      · rw [show collapseNewlinesAux (f + 1) (c :: rest)
              = c :: collapseNewlinesAux f rest by
            simp only [collapseNewlinesAux]; rw [if_neg hcond]]
        intro x hx
        rcases List.mem_cons.mp hx with rfl | hx
        · exact wsOnly_head hs
        · exact ih _ (wsOnly_tail hs) x hx

theorem jsTrim_eq_nil {s : List Char} (h : wsOnly s) : jsTrim s = [] := by
  simp [jsTrim, dropWhile_eq_nil_of_all (isJsWs_of_wsOnly h)]

theorem linkPassAux_eq_self_of_no_bracket :
    ∀ (f : Nat) (s : List Char), '[' ∉ s → linkPassAux f s = s := by
  intro f
  induction f with
  | zero => intro s _; rfl
  | succ f ih =>
    intro s hs
    cases s with
    | nil => rfl
    | cons c rest =>
      have hc : ¬(c = '[') := fun e => hs (List.mem_cons.mpr (Or.inl e.symm))
      have hrest : '[' ∉ rest := fun hx => hs (List.mem_cons_of_mem _ hx)
      simp [linkPassAux, hc, ih rest hrest]

theorem imagePassAux_eq_self_of_no_bracket :
    ∀ (f : Nat) (s : List Char), '[' ∉ s → imagePassAux f s = s := by
  intro f
  induction f with
  | zero => intro s _; rfl
  | succ f ih =>
    intro s hs
    cases s with
    | nil => rfl
    | cons c rest =>
      have hrest : '[' ∉ rest := fun hx => hs (List.mem_cons_of_mem _ hx)
      have hc : ¬(c = '!' ∧ rest.head? = some '[') := by
        rintro ⟨-, hh⟩
        cases rest with
        | nil => exact Option.noConfusion hh
        | cons d t =>
          have hd : d = '[' := by simpa using hh
          exact hrest (List.mem_cons.mpr (Or.inl hd.symm))
      simp [imagePassAux, hc, ih rest hrest]

/-- Claim C1 (the code diverges from it): on the fenced-code example
` ```bash\nnpm start\n``` `, the normalizer of the source returns
`bash\nnpm start`, not the claimed `npm start`: the inline-code rule (rule 5
of the source) runs before the fenced-block rule and consumes the backticks
pairwise, so the opening fence and the language tag `bash` are never removed
as a line.  This theorem evaluates the embedded source on the failing
input. -/
theorem markdownToHuman_fenced_example_value :
    markdownToHuman ("```bash\nnpm start\n```".toList) = "bash\nnpm start".toList := by
  decide

/-- Claim C2 (the code diverges from it): on `![alt](img.png)` the
normalizer of the source returns `!alt (img.png)`, not the claimed `alt`:
the link rule (rule 3 of the source) runs before the image rule and matches
the `[alt](img.png)` inside the image syntax, leaving `!alt (img.png)`, on
which the image pattern `!\[...\]\(...\)` no longer matches.  This theorem
evaluates the embedded source on the failing input. -/
theorem markdownToHuman_image_example_value :
    markdownToHuman ("![alt](img.png)".toList) = "!alt (img.png)".toList := by
  decide

/-- Claim C3, counterexample: the backslash escapes do not protect the
asterisks; `normalize('\*not italic\*')` is not `'*not italic*'`. -/
theorem markdownToHuman_escape_example_ne :
    ¬ (markdownToHuman ("\\*not italic\\*".toList) = "*not italic*".toList) := by
  decide

/-- Claim C3 as amended: the weak-emphasis rule `(\*|_)(.*?)\1` runs before
escape removal and does not look at backslashes, so it consumes the span
`*not italic\*` (interior `not italic\`), and escape removal then turns the
remaining `\n`-as-in-backslash-n pair into `n`, leaving a trailing
backslash: `normalize('\*not italic\*') = 'not italic\'`. -/
theorem markdownToHuman_escape_example_value :
    markdownToHuman ("\\*not italic\\*".toList) = "not italic\\".toList := by
  decide

/-- Claim C4, counterexample: the link pass and the image pass do not
commute; on `![alt](img.png)` running links first yields `!alt (img.png)`
while running images first yields `alt`.  The two patterns are not disjoint:
the link pattern matches inside the image syntax. -/
theorem link_image_order_counterexample :
    ¬ (imagePass (linkPass ("![alt](img.png)".toList))
        = linkPass (imagePass ("![alt](img.png)".toList))) := by
  decide

/-- Claim C4 as amended: the two passes do commute on any string that
contains no `[` character, since then neither pattern matches and both
passes are the identity. -/
theorem link_image_commute_of_no_bracket (s : List Char) (h : '[' ∉ s) :
    imagePass (linkPass s) = linkPass (imagePass s) := by
  have h1 : linkPass s = s := linkPassAux_eq_self_of_no_bracket _ _ h
  have h2 : imagePass s = s := imagePassAux_eq_self_of_no_bracket _ _ h
  rw [h1, h2, h1]

/-- Witness for the amended claim C4 at the concrete bracket-free input
`hello!`. -/
theorem link_image_commute_of_no_bracket_witness :
    imagePass (linkPass ("hello!".toList)) = linkPass (imagePass ("hello!".toList)) :=
  link_image_commute_of_no_bracket _ (by decide)

/-- Claim C5: `markdownToHuman` is a total function: every input string,
the empty string included, is mapped to a defined output string (the
embedding is a total computable Lean function translated from the source,
so this holds by construction). -/
theorem markdownToHuman_total :
    ∀ s : List Char, ∃ t : List Char, markdownToHuman s = t :=
  fun s => ⟨markdownToHuman s, rfl⟩

/-- Claim C6: for every string `s`, `getStats s s` reports a reduction of
zero and both length fields equal the length of `s`. -/
theorem getStats_self_stats (s : List Char) :
    (getStats s s).reductionPercent = 0
      ∧ (getStats s s).originalChars = s.length
      ∧ (getStats s s).cleanedChars = s.length := by
  refine ⟨?_, rfl, rfl⟩
  simp [getStats, jsMathRound]
  norm_num

/-- Claim C7: when the original string is empty, the guarded division makes
`reductionPercent` zero for every cleaned string. -/
theorem getStats_empty_original (cleaned : List Char) :
    (getStats [] cleaned).reductionPercent = 0 := by
  simp [getStats, jsMathRound]
  norm_num

/-- Claim C8: `markdownToHuman` is deterministic (a pure function of its
input): equal inputs give equal outputs.  Input mutation does not arise:
the embedding is purely functional, as is the source, whose local variable
`cleaned` is reassigned while the argument string is never written. -/
theorem markdownToHuman_deterministic (s t : List Char) (h : s = t) :
    markdownToHuman s = markdownToHuman t := by
  rw [h]

/-- Witness for claim C8 at a concrete input. -/
theorem markdownToHuman_deterministic_witness :
    markdownToHuman ("# a".toList) = markdownToHuman ("# a".toList) :=
  markdownToHuman_deterministic _ _ rfl

/-- Claim C9, counterexample: with an original of 16 characters and a
cleaned result of 19 characters the exact percentage is −18.75 (all
intermediate doubles of the source computation are dyadic, so the ℚ model
is exact here); the source's `Math.round` (half toward positive infinity)
yields −18.7, while round-half-away-from-zero and round-half-to-even both
yield −18.8, so the claimed rounding disjunction fails. -/
theorem reductionPercent_rounding_mode_counterexample :
    ¬ ((getStats (List.replicate 16 'a') (List.replicate 19 'a')).reductionPercent
          = (roundHalfAwayFromZero ((((List.replicate 16 'a').length : ℚ)
              - ((List.replicate 19 'a').length : ℚ))
              / ((List.replicate 16 'a').length : ℚ) * 100 * 10) : ℚ) / 10
      ∨ (getStats (List.replicate 16 'a') (List.replicate 19 'a')).reductionPercent
          = (roundHalfToEven ((((List.replicate 16 'a').length : ℚ)
              - ((List.replicate 19 'a').length : ℚ))
              / ((List.replicate 16 'a').length : ℚ) * 100 * 10) : ℚ) / 10) := by
  rw [not_or]
  constructor
  · norm_num [getStats, jsMathRound, roundHalfAwayFromZero, Int.ceil_neg]
  · norm_num [getStats, jsMathRound, roundHalfToEven, Int.fract]

/-- Claim C9 as amended: on the subdomain where the source's double
arithmetic is exact, and only there, the non-negative results follow
round-half-away-from-zero.  Concretely: when the original length is a power
of two `2 ^ k` with `k ≤ 46` and the cleaned string is not longer than the
original, every intermediate double of the source is exact — `(o − c)/o` is
`d / 2 ^ k` with `d ≤ 2 ^ 46`, and the later products reduce to
`25·d / 2 ^ (k−2)` and `125·d / 2 ^ (k−3)` whose numerators stay below
`2 ^ 53` — so the ℚ embedding coincides with the binary64 source, and the
half-up `Math.round` of a non-negative value equals round-half-away-from-
zero.  Outside this subdomain the claim can fail for a second, independent
reason that an exact-arithmetic embedding cannot exhibit: float rounding;
e.g. at lengths 80 and 29 the doubles give 637.4999999999999, so the source
yields 63.7 while round-half-away of the exact 63.75 is 63.8. -/
theorem reductionPercent_round_half_away_of_pow2 (original cleaned : List Char)
    (k : Nat) (_hk : k ≤ 46) (h1 : original.length = 2 ^ k)
    (h2 : cleaned.length ≤ original.length) :
    (getStats original cleaned).reductionPercent
      = (roundHalfAwayFromZero (((original.length : ℚ) - (cleaned.length : ℚ))
          / (original.length : ℚ) * 100 * 10) : ℚ) / 10 := by
  have h0 : 0 < original.length := h1 ▸ Nat.pos_pow_of_pos k (by norm_num)
  have hc : (cleaned.length : ℚ) ≤ (original.length : ℚ) := by exact_mod_cast h2
  have ho : (0 : ℚ) < (original.length : ℚ) := by exact_mod_cast h0
  have hx : (0 : ℚ) ≤ ((original.length : ℚ) - (cleaned.length : ℚ))
      / (original.length : ℚ) * 100 * 10 :=
    mul_nonneg (mul_nonneg (div_nonneg (sub_nonneg.mpr hc) ho.le) (by norm_num))
      (by norm_num)
  simp only [getStats, jsMathRound, roundHalfAwayFromZero, if_pos hx, if_pos h0]

/-- Witness for the amended claim C9 at original `abcd` (length `4 = 2 ^ 2`),
cleaned `ab` (a 50% reduction). -/
theorem reductionPercent_round_half_away_of_pow2_witness :
    (getStats ("abcd".toList) ("ab".toList)).reductionPercent
      = (roundHalfAwayFromZero (((("abcd".toList).length : ℚ)
          - (("ab".toList).length : ℚ))
          / (("abcd".toList).length : ℚ) * 100 * 10) : ℚ) / 10 :=
  reductionPercent_round_half_away_of_pow2 _ _ 2 (by decide) (by decide) (by decide)

/-- Claim C10: every input made only of spaces, tabs and newlines (the
empty string included) normalizes to the empty string: no rewrite rule of
the pipeline introduces non-whitespace text on such input, and the final
trim removes the rest. -/
theorem markdownToHuman_whitespace_only (s : List Char)
    (h : ∀ c ∈ s, c = ' ' ∨ c = '\t' ∨ c = '\n') :
    markdownToHuman s = [] := by
  have hw : wsOnly s := h
  rcases eq_or_ne s [] with rfl | hs
  · rfl
  · simp only [markdownToHuman, headingPass, strongPass, weakPass, linkPass,
      imagePass, codePass, fencePass, quotePass, pipePass, collapseSpaces,
      hrulePass, ulPass, olPass, collapseNewlines]
    rw [if_neg hs]
    rw [gmDeleteAux_eq_self _ (fun t ht => matchHeading_wsOnly ht) _ _ _ hw]
    rw [strongPassAux_eq_self _ _ hw]
    rw [weakPassAux_eq_self _ _ hw]
    rw [linkPassAux_eq_self _ _ hw]
    rw [imagePassAux_eq_self _ _ hw]
    rw [codePassAux_eq_self _ _ hw]
    rw [fencePassAux_eq_self _ _ hw]
    rw [gmDeleteAux_eq_self _ (fun t ht => matchQuote_wsOnly ht) _ _ _ hw]
    rw [pipePassAux_eq_self _ _ hw]
    have hw2 : wsOnly (collapseSpacesAux s.length s) :=
      collapseSpacesAux_wsOnly _ _ hw
    rw [gmDeleteAux_eq_self _ (fun t ht => matchHrule_wsOnly ht) _ _ _ hw2]
    rw [escapePass_eq_self _ hw2]
    rw [gmDeleteAux_eq_self _ (fun t ht => matchUl_wsOnly ht) _ _ _ hw2]
    rw [gmDeleteAux_eq_self _ (fun t ht => matchOl_wsOnly ht) _ _ _ hw2]
    exact jsTrim_eq_nil (collapseNewlinesAux_wsOnly _ _ hw2)

/-- Witness for claim C10 at a concrete whitespace-only input. -/
theorem markdownToHuman_whitespace_only_witness :
    markdownToHuman (" \n\t \n ".toList) = [] :=
  markdownToHuman_whitespace_only _ (by decide)
